import Mathlib

/-!
Verification of the pixel-contribution core: the octahedral direction codec,
the grid indexer, the PCMP binary loader, the angle interpolators and the
interpolation-error analyzer.

Floating-point arithmetic of the source ("number" in TypeScript, Float64 in
Julia) is modelled by exact real arithmetic; byte-level parsing is modelled
over lists of natural-number bytes and is fully executable.
-/

namespace PixelContrib

noncomputable section

/-- A 3-component vector (gl-matrix `vec3`, Julia `Vector{Float64}` of length 3). -/
@[ext]
structure Vec3 where
  x : ℝ
  y : ℝ
  z : ℝ

/-- A 2-component vector (gl-matrix `vec2`). -/
@[ext]
structure Vec2 where
  x : ℝ
  y : ℝ

/-- gl-matrix `vec3.normalize`: computes the squared length; if it is positive the
vector is scaled by the reciprocal square root, otherwise every component is
multiplied by the untouched zero scale factor (the zero vector maps to itself).
Julia's `LinearAlgebra.normalize` agrees with this on every nonzero vector, which
is the only case the Julia sources reach. -/
def vec3_normalize (v : Vec3) : Vec3 :=
  let len := v.x * v.x + v.y * v.y + v.z * v.z
  if 0 < len then
    let s := 1 / Real.sqrt len
    ⟨v.x * s, v.y * s, v.z * s⟩
  else
    ⟨v.x * 0, v.y * 0, v.z * 0⟩

/-- Dot product of two 3-vectors (gl-matrix `vec3.dot`). -/
def vec3_dot (a b : Vec3) : ℝ :=
  a.x * b.x + a.y * b.y + a.z * b.z

/-- `wrap_octahedron_normal_value` from `pixel_contrib.ts` / `octahedron.jl`:
`(1.0 - |v2|) * (v1 >= 0.0 ? 1.0 : -1.0)`. -/
def wrap_octahedron_normal_value (v1 v2 : ℝ) : ℝ :=
  (1 - |v2|) * (if 0 ≤ v1 then 1 else -1)

/-- `encode_octahedron_normal`: normalizes the input, divides the first two
components by the 1-norm of the normalized vector, folds them when the third
component is negative (the fold of the second component uses the saved pre-fold
first component `tmp`), and rescales from [-1,1] to [0,1]. -/
def encode_octahedron_normal (in_normal : Vec3) : Vec2 :=
  let normal := vec3_normalize in_normal
  let abs_sum := |normal.x| + |normal.y| + |normal.z|
  let nx := normal.x / abs_sum
  let ny := normal.y / abs_sum
  let fx := if normal.z < 0 then wrap_octahedron_normal_value nx ny else nx
  let fy := if normal.z < 0 then wrap_octahedron_normal_value ny nx else ny
  ⟨fx * 0.5 + 0.5, fy * 0.5 + 0.5⟩

/-- `decode_octahedron_normal`: rescales to [-1,1], computes
`z = 1 - |x| - |y|`, unfolds the first two components when `z` is negative and
normalizes the result. -/
def decode_octahedron_normal (in_octahedron : Vec2) : Vec3 :=
  let ox := in_octahedron.x * 2 - 1
  let oy := in_octahedron.y * 2 - 1
  let z := 1 - |ox| - |oy|
  let x := if 0 ≤ z then ox else wrap_octahedron_normal_value ox oy
  let y := if 0 ≤ z then oy else wrap_octahedron_normal_value oy ox
  vec3_normalize ⟨x, y, z⟩

/-! ### Helper lemmas about the codec -/

/-- The absolute value of a wrapped component, when the partner component lies in
the unit interval. -/
lemma abs_wrap (v1 v2 : ℝ) (h : |v2| ≤ 1) :
    |wrap_octahedron_normal_value v1 v2| = 1 - |v2| := by
  unfold wrap_octahedron_normal_value
  rcases le_or_lt 0 v1 with h1 | h1
  · rw [if_pos h1, mul_one, abs_of_nonneg (by linarith)]
  · rw [if_neg (not_le.mpr h1), mul_neg_one, abs_neg, abs_of_nonneg (by linarith)]

/-- Applying the fold twice (with both arguments folded) recovers the original
first component. -/
lemma wrap_wrap (a b : ℝ) (ha : |a| ≤ 1) (hb : |b| < 1) :
    wrap_octahedron_normal_value (wrap_octahedron_normal_value a b)
      (wrap_octahedron_normal_value b a) = a := by
  rw [wrap_octahedron_normal_value, abs_wrap b a ha]
  rcases le_or_lt 0 a with h1 | h1
  · have hw : 0 ≤ wrap_octahedron_normal_value a b := by
      rw [wrap_octahedron_normal_value, if_pos h1, mul_one]
      linarith
    rw [if_pos hw, abs_of_nonneg h1]
    ring
  · have hw : ¬ 0 ≤ wrap_octahedron_normal_value a b := by
      rw [wrap_octahedron_normal_value, if_neg (not_le.mpr h1), mul_neg_one]
      push_neg
      linarith
    rw [if_neg hw, abs_of_neg h1]
    ring

/-- Normalizing a unit vector divided by a positive scalar recovers the vector. -/
lemma vec3_normalize_div_unit (v : Vec3) (s : ℝ) (hs : 0 < s)
    (hv : v.x * v.x + v.y * v.y + v.z * v.z = 1) :
    vec3_normalize ⟨v.x / s, v.y / s, v.z / s⟩ = v := by
  have hs' : s ≠ 0 := ne_of_gt hs
  have hlen : v.x / s * (v.x / s) + v.y / s * (v.y / s) + v.z / s * (v.z / s)
      = 1 / (s * s) := by
    field_simp
    linarith [hv]
  have hpos : (0 : ℝ) < 1 / (s * s) := by positivity
  have hsqrt : Real.sqrt (1 / (s * s)) = 1 / s := by
    rw [show 1 / (s * s) = (1 / s) ^ 2 by ring]
    exact Real.sqrt_sq (by positivity)
  simp only [vec3_normalize, hlen, hsqrt, if_pos hpos, one_div_one_div]
  have hx : v.x / s * s = v.x := div_mul_cancel₀ _ hs'
  have hy : v.y / s * s = v.y := div_mul_cancel₀ _ hs'
  have hz : v.z / s * s = v.z := div_mul_cancel₀ _ hs'
  rw [hx, hy, hz]

/-- Helper for the proofs: the value of the encoder expressed directly on the input
vector (skipping the normalization step), valid whenever the input has positive
squared length. -/
def encode_core (v : Vec3) : Vec2 :=
  let s := |v.x| + |v.y| + |v.z|
  let nx := v.x / s
  let ny := v.y / s
  let fx := if v.z < 0 then wrap_octahedron_normal_value nx ny else nx
  let fy := if v.z < 0 then wrap_octahedron_normal_value ny nx else ny
  ⟨fx * 0.5 + 0.5, fy * 0.5 + 0.5⟩

/-- Scaling the input by a positive factor does not change `encode_core`. -/
lemma encode_core_scale (v : Vec3) (c : ℝ) (hc : 0 < c) :
    encode_core ⟨v.x * c, v.y * c, v.z * c⟩ = encode_core v := by
  have hc' : c ≠ 0 := ne_of_gt hc
  have habs : |v.x * c| + |v.y * c| + |v.z * c| = (|v.x| + |v.y| + |v.z|) * c := by
    rw [abs_mul, abs_mul, abs_mul, abs_of_pos hc]
    ring
  have hdx : v.x * c / ((|v.x| + |v.y| + |v.z|) * c) = v.x / (|v.x| + |v.y| + |v.z|) :=
    mul_div_mul_right _ _ hc'
  have hdy : v.y * c / ((|v.x| + |v.y| + |v.z|) * c) = v.y / (|v.x| + |v.y| + |v.z|) :=
    mul_div_mul_right _ _ hc'
  have hzc : v.z * c < 0 ↔ v.z < 0 := by
    constructor
    · intro h
      nlinarith
    · intro h
      exact mul_neg_of_neg_of_pos h hc
  simp only [encode_core, habs, hdx, hdy, hzc]

/-- The encoder is definitionally `encode_core` applied after normalization. -/
lemma encode_eq_core_normalize (v : Vec3) :
    encode_octahedron_normal v = encode_core (vec3_normalize v) := rfl

/-- The explicit value of `vec3_normalize` on a vector of positive squared length. -/
lemma vec3_normalize_pos (v : Vec3) (hv : 0 < v.x * v.x + v.y * v.y + v.z * v.z) :
    vec3_normalize v =
      ⟨v.x * (1 / Real.sqrt (v.x * v.x + v.y * v.y + v.z * v.z)),
       v.y * (1 / Real.sqrt (v.x * v.x + v.y * v.y + v.z * v.z)),
       v.z * (1 / Real.sqrt (v.x * v.x + v.y * v.y + v.z * v.z))⟩ := by
  simp only [vec3_normalize]
  rw [if_pos hv]

/-- On an input of positive squared length, the encoder agrees with `encode_core`. -/
lemma encode_eq_core (v : Vec3) (hv : 0 < v.x * v.x + v.y * v.y + v.z * v.z) :
    encode_octahedron_normal v = encode_core v := by
  have hinv : (0 : ℝ) < 1 / Real.sqrt (v.x * v.x + v.y * v.y + v.z * v.z) := by
    have := Real.sqrt_pos.mpr hv
    positivity
  rw [encode_eq_core_normalize, vec3_normalize_pos v hv]
  exact encode_core_scale v _ hinv

/-- A vector whose components sum to one in absolute value has positive squared
length. -/
lemma sq_pos_of_one_norm_one (w : Vec3) (h : |w.x| + |w.y| + |w.z| = 1) :
    0 < w.x * w.x + w.y * w.y + w.z * w.z := by
  by_contra hc
  push_neg at hc
  have hx : w.x = 0 := mul_self_eq_zero.mp (le_antisymm
    (by nlinarith [mul_self_nonneg w.y, mul_self_nonneg w.z]) (mul_self_nonneg w.x))
  have hy : w.y = 0 := mul_self_eq_zero.mp (le_antisymm
    (by nlinarith [mul_self_nonneg w.x, mul_self_nonneg w.z]) (mul_self_nonneg w.y))
  have hz : w.z = 0 := mul_self_eq_zero.mp (le_antisymm
    (by nlinarith [mul_self_nonneg w.x, mul_self_nonneg w.y]) (mul_self_nonneg w.z))
  rw [hx, hy, hz] at h
  simp at h

/-- The normalized form of a vector of positive squared length has unit squared
length. -/
lemma normalize_sq_one (w : Vec3) (hw : 0 < w.x * w.x + w.y * w.y + w.z * w.z) :
    (vec3_normalize w).x * (vec3_normalize w).x
      + (vec3_normalize w).y * (vec3_normalize w).y
      + (vec3_normalize w).z * (vec3_normalize w).z = 1 := by
  rw [vec3_normalize_pos w hw]
  have hqne : Real.sqrt (w.x * w.x + w.y * w.y + w.z * w.z) ≠ 0 :=
    ne_of_gt (Real.sqrt_pos.mpr hw)
  field_simp

/-- Encoding the normalization of a vector of positive squared length computes
`encode_core` of the vector itself. -/
lemma encode_normalize_eq_core (w : Vec3) (hw : 0 < w.x * w.x + w.y * w.y + w.z * w.z) :
    encode_octahedron_normal (vec3_normalize w) = encode_core w := by
  rw [encode_eq_core (vec3_normalize w) (by rw [normalize_sq_one w hw]; norm_num)]
  rw [vec3_normalize_pos w hw]
  exact encode_core_scale w _ (by positivity)

/-- Decoding the encoding of a unit direction recovers the direction exactly (in
exact real arithmetic). -/
lemma decode_encode_unit (d : Vec3) (hd : d.x * d.x + d.y * d.y + d.z * d.z = 1) :
    decode_octahedron_normal (encode_octahedron_normal d) = d := by
  have hq : 0 < d.x * d.x + d.y * d.y + d.z * d.z := by
    rw [hd]
    norm_num
  set s := |d.x| + |d.y| + |d.z| with hs_def
  have hss : 1 ≤ s * s := by
    nlinarith [abs_nonneg d.x, abs_nonneg d.y, abs_nonneg d.z,
      abs_mul_abs_self d.x, abs_mul_abs_self d.y, abs_mul_abs_self d.z,
      mul_nonneg (abs_nonneg d.x) (abs_nonneg d.y),
      mul_nonneg (abs_nonneg d.x) (abs_nonneg d.z),
      mul_nonneg (abs_nonneg d.y) (abs_nonneg d.z)]
  have hs0 : 0 < s := by
    rcases lt_trichotomy s 0 with h | h | h
    · nlinarith [abs_nonneg d.x, abs_nonneg d.y, abs_nonneg d.z]
    · rw [h] at hss
      norm_num at hss
    · exact h
  have hsne : s ≠ 0 := ne_of_gt hs0
  have habs_x : |d.x / s| = |d.x| / s := by rw [abs_div, abs_of_pos hs0]
  have habs_y : |d.y / s| = |d.y| / s := by rw [abs_div, abs_of_pos hs0]
  have hxle : |d.x| / s ≤ 1 := by
    rw [div_le_one hs0, hs_def]
    have h1 := abs_nonneg d.y
    have h2 := abs_nonneg d.z
    linarith
  have hyle : |d.y| / s ≤ 1 := by
    rw [div_le_one hs0, hs_def]
    have h1 := abs_nonneg d.x
    have h2 := abs_nonneg d.z
    linarith
  rw [encode_eq_core d hq]
  rcases le_or_lt 0 d.z with h0z | hz
  · -- upper hemisphere: no fold applied, decode passes the components through
    have henc : encode_core d = ⟨d.x / s * 0.5 + 0.5, d.y / s * 0.5 + 0.5⟩ := by
      simp only [encode_core, ← hs_def]
      rw [if_neg (not_lt.mpr h0z), if_neg (not_lt.mpr h0z)]
    rw [henc]
    simp only [decode_octahedron_normal]
    rw [show (d.x / s * 0.5 + 0.5) * 2 - 1 = d.x / s from by ring,
      show (d.y / s * 0.5 + 0.5) * 2 - 1 = d.y / s from by ring]
    have hz_expr : 1 - |d.x / s| - |d.y / s| = d.z / s := by
      rw [habs_x, habs_y]
      have hzz : s - |d.x| - |d.y| = d.z := by
        rw [hs_def, abs_of_nonneg h0z]
        ring
      calc 1 - |d.x| / s - |d.y| / s = (s - |d.x| - |d.y|) / s := by
            field_simp
          _ = d.z / s := by rw [hzz]
    rw [hz_expr]
    have hzpos : 0 ≤ d.z / s := div_nonneg h0z (le_of_lt hs0)
    rw [if_pos hzpos, if_pos hzpos]
    exact vec3_normalize_div_unit d s hs0 hd
  · -- lower hemisphere: the fold is applied by the encoder and undone by the decoder
    have hzpos' : 0 < |d.z| := abs_pos.mpr (ne_of_lt hz)
    have hxlt : |d.x| / s < 1 := by
      rw [div_lt_one hs0, hs_def]
      have h1 := abs_nonneg d.y
      linarith
    have hylt : |d.y| / s < 1 := by
      rw [div_lt_one hs0, hs_def]
      have h1 := abs_nonneg d.x
      linarith
    have hxlt' : |d.x / s| < 1 := by rw [habs_x]; exact hxlt
    have hylt' : |d.y / s| < 1 := by rw [habs_y]; exact hylt
    have hxle' : |d.x / s| ≤ 1 := le_of_lt hxlt'
    have hyle' : |d.y / s| ≤ 1 := le_of_lt hylt'
    have henc : encode_core d =
        ⟨wrap_octahedron_normal_value (d.x / s) (d.y / s) * 0.5 + 0.5,
         wrap_octahedron_normal_value (d.y / s) (d.x / s) * 0.5 + 0.5⟩ := by
      simp only [encode_core, ← hs_def]
      rw [if_pos hz, if_pos hz]
    rw [henc]
    simp only [decode_octahedron_normal]
    rw [show (wrap_octahedron_normal_value (d.x / s) (d.y / s) * 0.5 + 0.5) * 2 - 1
        = wrap_octahedron_normal_value (d.x / s) (d.y / s) from by ring,
      show (wrap_octahedron_normal_value (d.y / s) (d.x / s) * 0.5 + 0.5) * 2 - 1
        = wrap_octahedron_normal_value (d.y / s) (d.x / s) from by ring]
    have habs1 : |wrap_octahedron_normal_value (d.x / s) (d.y / s)| = 1 - |d.y / s| :=
      abs_wrap _ _ hyle'
    have habs2 : |wrap_octahedron_normal_value (d.y / s) (d.x / s)| = 1 - |d.x / s| :=
      abs_wrap _ _ hxle'
    have hz_expr : 1 - |wrap_octahedron_normal_value (d.x / s) (d.y / s)|
        - |wrap_octahedron_normal_value (d.y / s) (d.x / s)| = d.z / s := by
      rw [habs1, habs2, habs_x, habs_y]
      have hzz : |d.x| + |d.y| - s = d.z := by
        rw [hs_def, abs_of_neg hz]
        ring
      calc 1 - (1 - |d.y| / s) - (1 - |d.x| / s) = (|d.x| + |d.y| - s) / s := by
            field_simp
            ring
          _ = d.z / s := by rw [hzz]
    rw [hz_expr]
    have hzneg : ¬ (0 ≤ d.z / s) := not_le.mpr (div_neg_of_neg_of_pos hz hs0)
    rw [if_neg hzneg, if_neg hzneg]
    rw [wrap_wrap (d.x / s) (d.y / s) hxle' hylt',
      wrap_wrap (d.y / s) (d.x / s) hyle' hxlt']
    exact vec3_normalize_div_unit d s hs0 hd

/-- Encoding the decoding of a coordinate strictly inside the unit square recovers
the coordinate exactly (in exact real arithmetic). -/
lemma encode_decode_interior (p : Vec2) (hx0 : 0 < p.x) (hx1 : p.x < 1)
    (hy0 : 0 < p.y) (hy1 : p.y < 1) :
    encode_octahedron_normal (decode_octahedron_normal p) = p := by
  have hox1 : |p.x * 2 - 1| < 1 := abs_lt.mpr ⟨by linarith, by linarith⟩
  have hoy1 : |p.y * 2 - 1| < 1 := abs_lt.mpr ⟨by linarith, by linarith⟩
  have hox1' : |p.x * 2 - 1| ≤ 1 := le_of_lt hox1
  have hoy1' : |p.y * 2 - 1| ≤ 1 := le_of_lt hoy1
  simp only [decode_octahedron_normal]
  rcases le_or_lt 0 (1 - |p.x * 2 - 1| - |p.y * 2 - 1|) with hzp | hzn
  · rw [if_pos hzp, if_pos hzp]
    have h1norm : |p.x * 2 - 1| + |p.y * 2 - 1|
        + abs (1 - |p.x * 2 - 1| - |p.y * 2 - 1|) = 1 := by
      rw [abs_of_nonneg hzp]
      ring
    rw [encode_normalize_eq_core _ (sq_pos_of_one_norm_one _ h1norm)]
    have hcore : encode_core ⟨p.x * 2 - 1, p.y * 2 - 1, 1 - |p.x * 2 - 1| - |p.y * 2 - 1|⟩
        = ⟨(p.x * 2 - 1) * 0.5 + 0.5, (p.y * 2 - 1) * 0.5 + 0.5⟩ := by
      simp only [encode_core]
      rw [h1norm, div_one, div_one, if_neg (not_lt.mpr hzp), if_neg (not_lt.mpr hzp)]
    rw [hcore]
    ext
    · show (p.x * 2 - 1) * 0.5 + 0.5 = p.x
      ring
    · show (p.y * 2 - 1) * 0.5 + 0.5 = p.y
      ring
  · rw [if_neg (not_le.mpr hzn), if_neg (not_le.mpr hzn)]
    have habs1 : |wrap_octahedron_normal_value (p.x * 2 - 1) (p.y * 2 - 1)|
        = 1 - |p.y * 2 - 1| := abs_wrap _ _ hoy1'
    have habs2 : |wrap_octahedron_normal_value (p.y * 2 - 1) (p.x * 2 - 1)|
        = 1 - |p.x * 2 - 1| := abs_wrap _ _ hox1'
    have h1norm : |wrap_octahedron_normal_value (p.x * 2 - 1) (p.y * 2 - 1)|
        + |wrap_octahedron_normal_value (p.y * 2 - 1) (p.x * 2 - 1)|
        + abs (1 - |p.x * 2 - 1| - |p.y * 2 - 1|) = 1 := by
      rw [habs1, habs2, abs_of_neg hzn]
      ring
    rw [encode_normalize_eq_core _ (sq_pos_of_one_norm_one _ h1norm)]
    have hcore : encode_core ⟨wrap_octahedron_normal_value (p.x * 2 - 1) (p.y * 2 - 1),
        wrap_octahedron_normal_value (p.y * 2 - 1) (p.x * 2 - 1),
        1 - |p.x * 2 - 1| - |p.y * 2 - 1|⟩
        = ⟨wrap_octahedron_normal_value
             (wrap_octahedron_normal_value (p.x * 2 - 1) (p.y * 2 - 1))
             (wrap_octahedron_normal_value (p.y * 2 - 1) (p.x * 2 - 1)) * 0.5 + 0.5,
           wrap_octahedron_normal_value
             (wrap_octahedron_normal_value (p.y * 2 - 1) (p.x * 2 - 1))
             (wrap_octahedron_normal_value (p.x * 2 - 1) (p.y * 2 - 1)) * 0.5 + 0.5⟩ := by
      simp only [encode_core]
      rw [h1norm, div_one, div_one, if_pos hzn, if_pos hzn]
    rw [hcore, wrap_wrap (p.x * 2 - 1) (p.y * 2 - 1) hox1' hoy1,
      wrap_wrap (p.y * 2 - 1) (p.x * 2 - 1) hoy1' hox1]
    ext
    · show (p.x * 2 - 1) * 0.5 + 0.5 = p.x
      ring
    · show (p.y * 2 - 1) * 0.5 + 0.5 = p.y
      ring

/-- A unit vector has positive 1-norm. -/
lemma one_norm_pos_of_unit (d : Vec3) (hd : d.x * d.x + d.y * d.y + d.z * d.z = 1) :
    0 < |d.x| + |d.y| + |d.z| := by
  by_contra hc
  push_neg at hc
  have hax := abs_nonneg d.x
  have hay := abs_nonneg d.y
  have haz := abs_nonneg d.z
  have hx : d.x = 0 := abs_eq_zero.mp (le_antisymm (by linarith) hax)
  have hy : d.y = 0 := abs_eq_zero.mp (le_antisymm (by linarith) hay)
  have hz : d.z = 0 := abs_eq_zero.mp (le_antisymm (by linarith) haz)
  rw [hx, hy, hz] at hd
  norm_num at hd

/-- Rescaling a value of the symmetric unit interval lands in the unit interval. -/
lemma half_shift_mem (t : ℝ) (h : |t| ≤ 1) : 0 ≤ t * 0.5 + 0.5 ∧ t * 0.5 + 0.5 ≤ 1 := by
  rcases abs_le.mp h with ⟨h1, h2⟩
  constructor <;> nlinarith

/-! ### Error taxonomy of the codec (C5) -/

/-- Error taxonomy of the specification for the direction codec. -/
inductive CodecError
  | invalidInput
deriving DecidableEq

/-- The TypeScript `encode_octahedron_normal` as a fallible computation. The source
body contains no `throw` statement and no zero-length test: its only operations are
arithmetic (and gl-matrix `vec3.normalize`, which maps the zero vector to the zero
vector rather than failing), so the embedding returns `Except.ok` on every input;
in IEEE arithmetic a zero-length input silently flows through the division by the
zero 1-norm as NaN. -/
def encode_octahedron_normal_checked (v : Vec3) : Except CodecError Vec2 :=
  Except.ok (encode_octahedron_normal v)

/-! ### Claim theorems for the codec -/

/-- C1: for every unit 3D direction `d`, decoding the encoded octahedral coordinate
returns a direction that agrees with `d` to within angular error (one minus dot
product) at most 1e-6. In exact real arithmetic the round trip is exact, so the
error is zero. -/
theorem octahedron_roundtrip_error_bound (d : Vec3) (hd : vec3_dot d d = 1) :
    |1 - vec3_dot d (decode_octahedron_normal (encode_octahedron_normal d))| ≤ 1e-6 := by
  have hd' : d.x * d.x + d.y * d.y + d.z * d.z = 1 := hd
  rw [decode_encode_unit d hd', show vec3_dot d d = 1 from hd]
  norm_num

/-- Witness for C1 at the unit direction (3/5, 0, -4/5), which exercises the
lower-hemisphere fold. -/
theorem octahedron_roundtrip_error_bound_witness :
    vec3_dot ⟨3 / 5, 0, -(4 / 5)⟩ ⟨3 / 5, 0, -(4 / 5)⟩ = 1 ∧
    |1 - vec3_dot ⟨3 / 5, 0, -(4 / 5)⟩ (decode_octahedron_normal
      (encode_octahedron_normal ⟨3 / 5, 0, -(4 / 5)⟩))| ≤ 1e-6 :=
  ⟨by norm_num [vec3_dot], octahedron_roundtrip_error_bound _ (by norm_num [vec3_dot])⟩

/-- C6: for every unit direction `d`, both components of the encoded octahedral
coordinate lie in the closed interval [0, 1], including when the hemisphere fold
for negative `z` is applied. -/
theorem encode_components_in_unit_interval (d : Vec3) (hd : vec3_dot d d = 1) :
    (0 ≤ (encode_octahedron_normal d).x ∧ (encode_octahedron_normal d).x ≤ 1) ∧
    (0 ≤ (encode_octahedron_normal d).y ∧ (encode_octahedron_normal d).y ≤ 1) := by
  have hd' : d.x * d.x + d.y * d.y + d.z * d.z = 1 := hd
  have hq : 0 < d.x * d.x + d.y * d.y + d.z * d.z := by
    rw [hd']
    norm_num
  rw [encode_eq_core d hq]
  set s := |d.x| + |d.y| + |d.z| with hs_def
  have hs0 : 0 < s := one_norm_pos_of_unit d hd'
  have habs_x : |d.x / s| = |d.x| / s := by rw [abs_div, abs_of_pos hs0]
  have habs_y : |d.y / s| = |d.y| / s := by rw [abs_div, abs_of_pos hs0]
  have hxle : |d.x / s| ≤ 1 := by
    rw [habs_x, div_le_one hs0, hs_def]
    have h1 := abs_nonneg d.y
    have h2 := abs_nonneg d.z
    linarith
  have hyle : |d.y / s| ≤ 1 := by
    rw [habs_y, div_le_one hs0, hs_def]
    have h1 := abs_nonneg d.x
    have h2 := abs_nonneg d.z
    linarith
  rcases lt_or_le d.z 0 with hz | hz
  · have henc : encode_core d =
        ⟨wrap_octahedron_normal_value (d.x / s) (d.y / s) * 0.5 + 0.5,
         wrap_octahedron_normal_value (d.y / s) (d.x / s) * 0.5 + 0.5⟩ := by
      simp only [encode_core, ← hs_def]
      rw [if_pos hz, if_pos hz]
    rw [henc]
    have hb1 : |wrap_octahedron_normal_value (d.x / s) (d.y / s)| ≤ 1 := by
      rw [abs_wrap _ _ hyle]
      have := abs_nonneg (d.y / s)
      linarith
    have hb2 : |wrap_octahedron_normal_value (d.y / s) (d.x / s)| ≤ 1 := by
      rw [abs_wrap _ _ hxle]
      have := abs_nonneg (d.x / s)
      linarith
    exact ⟨half_shift_mem _ hb1, half_shift_mem _ hb2⟩
  · have henc : encode_core d = ⟨d.x / s * 0.5 + 0.5, d.y / s * 0.5 + 0.5⟩ := by
      simp only [encode_core, ← hs_def]
      rw [if_neg (not_lt.mpr hz), if_neg (not_lt.mpr hz)]
    rw [henc]
    exact ⟨half_shift_mem _ hxle, half_shift_mem _ hyle⟩

/-- Witness for C6 at the south pole (0, 0, -1), where the fold degenerates. -/
theorem encode_components_in_unit_interval_witness :
    vec3_dot ⟨0, 0, -1⟩ ⟨0, 0, -1⟩ = 1 ∧
    ((0 ≤ (encode_octahedron_normal ⟨0, 0, -1⟩).x ∧
        (encode_octahedron_normal ⟨0, 0, -1⟩).x ≤ 1) ∧
      (0 ≤ (encode_octahedron_normal ⟨0, 0, -1⟩).y ∧
        (encode_octahedron_normal ⟨0, 0, -1⟩).y ≤ 1)) :=
  ⟨by norm_num [vec3_dot],
    encode_components_in_unit_interval _ (by norm_num [vec3_dot])⟩

/-- C5 counterexample: the all-zero input vector has zero length, yet encoding does
not raise an error: the checked encoder returns a value. -/
theorem encode_zero_length_not_rejected :
    (encode_octahedron_normal_checked ⟨0, 0, 0⟩).isOk = true := rfl

/-- C5 amended: the direction encoder performs no zero-length check and raises no
error at all: for every input vector, also every zero-length one, it returns a
value. -/
theorem encode_never_raises (v : Vec3) :
    (encode_octahedron_normal_checked v).isOk = true := rfl

/-! ### Grid indexer (`contrib_maps.jl`, 1-based indices) -/

/-- Julia `round(UInt32, x)`: round to nearest with ties to even. (The `UInt32`
conversion would reject values below zero after rounding; the round-trip theorem
only ever rounds exact nonnegative integers, on which every rounding mode
agrees.) -/
def round_ties_to_even (x : ℝ) : ℤ :=
  if Int.fract x = 1 / 2 then (if Even ⌊x⌋ then ⌊x⌋ else ⌊x⌋ + 1) else round x

/-- `index_from_camera_dir` from `contrib_maps.jl`: encodes the camera direction,
scales by the map size, shifts by (0.5, 0.5), rounds, clamps each component to
[0, map_size - 1] (Julia `clamp(x, lo, hi)` is `min (max x lo) hi`) and returns
the 1-based index pair. -/
def index_from_camera_dir (dir : Vec3) (map_size : ℕ) : ℤ × ℤ :=
  let uv := encode_octahedron_normal dir
  let u := min (max (round_ties_to_even (uv.x * (map_size : ℝ) - 0.5)) 0)
    ((map_size : ℤ) - 1)
  let v := min (max (round_ties_to_even (uv.y * (map_size : ℝ) - 0.5)) 0)
    ((map_size : ℤ) - 1)
  (u + 1, v + 1)

/-- `camera_dir_from_index` from `contrib_maps.jl`: shifts the 1-based index pair
by (0.5, 0.5), divides by the map size and decodes the octahedral coordinate. The
source throws an `ArgumentError` when a component lies outside `[1, map_size]`;
that range check reappears as the hypotheses of the round-trip theorem. -/
def camera_dir_from_index (in_uv : ℕ × ℕ) (map_size : ℕ) : Vec3 :=
  decode_octahedron_normal
    ⟨((in_uv.1 : ℝ) - 0.5) / (map_size : ℝ), ((in_uv.2 : ℝ) - 0.5) / (map_size : ℝ)⟩

/-- Rounding an exact integer returns it under every rounding mode. -/
lemma round_ties_to_even_intCast (k : ℤ) : round_ties_to_even (k : ℝ) = k := by
  unfold round_ties_to_even
  rw [Int.fract_intCast, if_neg (by norm_num)]
  exact round_intCast k

/-- The index round trip is exact for every positive map size. -/
lemma grid_roundtrip_aux (map_size u v : ℕ) (h0 : 0 < map_size)
    (hu1 : 1 ≤ u) (hu2 : u ≤ map_size) (hv1 : 1 ≤ v) (hv2 : v ≤ map_size) :
    index_from_camera_dir (camera_dir_from_index (u, v) map_size) map_size
      = ((u : ℤ), (v : ℤ)) := by
  have hn0 : (0 : ℝ) < (map_size : ℝ) := by exact_mod_cast h0
  have hne : (map_size : ℝ) ≠ 0 := ne_of_gt hn0
  have hu1' : (1 : ℝ) ≤ (u : ℝ) := by exact_mod_cast hu1
  have hu2' : (u : ℝ) ≤ (map_size : ℝ) := by exact_mod_cast hu2
  have hv1' : (1 : ℝ) ≤ (v : ℝ) := by exact_mod_cast hv1
  have hv2' : (v : ℝ) ≤ (map_size : ℝ) := by exact_mod_cast hv2
  have hx0 : 0 < ((u : ℝ) - 0.5) / (map_size : ℝ) := div_pos (by linarith) hn0
  have hx1 : ((u : ℝ) - 0.5) / (map_size : ℝ) < 1 := (div_lt_one hn0).mpr (by linarith)
  have hy0 : 0 < ((v : ℝ) - 0.5) / (map_size : ℝ) := div_pos (by linarith) hn0
  have hy1 : ((v : ℝ) - 0.5) / (map_size : ℝ) < 1 := (div_lt_one hn0).mpr (by linarith)
  simp only [index_from_camera_dir, camera_dir_from_index]
  rw [encode_decode_interior ⟨((u : ℝ) - 0.5) / (map_size : ℝ),
    ((v : ℝ) - 0.5) / (map_size : ℝ)⟩ hx0 hx1 hy0 hy1]
  have eu : ((u : ℝ) - 0.5) / (map_size : ℝ) * (map_size : ℝ) - 0.5
      = (((u : ℤ) - 1 : ℤ) : ℝ) := by
    rw [div_mul_cancel₀ _ hne]
    push_cast
    ring
  have ev : ((v : ℝ) - 0.5) / (map_size : ℝ) * (map_size : ℝ) - 0.5
      = (((v : ℤ) - 1 : ℤ) : ℝ) := by
    rw [div_mul_cancel₀ _ hne]
    push_cast
    ring
  rw [eu, ev, round_ties_to_even_intCast, round_ties_to_even_intCast]
  have hmu : max ((u : ℤ) - 1) 0 = (u : ℤ) - 1 := max_eq_left (by omega)
  have hmv : max ((v : ℤ) - 1) 0 = (v : ℤ) - 1 := max_eq_left (by omega)
  rw [hmu, hmv, min_eq_left (by omega), min_eq_left (by omega)]
  simp only [Prod.mk.injEq]
  omega

/-- C2: for every map size in the documented set and every 1-based integer index
pair in range, converting the index to a camera direction and back yields exactly
the original pair, with exact integer equality. -/
theorem grid_index_roundtrip (map_size u v : ℕ)
    (hsize : map_size ∈ [16, 32, 64, 128, 256, 512, 1024])
    (hu1 : 1 ≤ u) (hu2 : u ≤ map_size) (hv1 : 1 ≤ v) (hv2 : v ≤ map_size) :
    index_from_camera_dir (camera_dir_from_index (u, v) map_size) map_size
      = ((u : ℤ), (v : ℤ)) := by
  have h0 : 0 < map_size := by
    simp only [List.mem_cons, List.not_mem_nil, or_false] at hsize
    omega
  exact grid_roundtrip_aux map_size u v h0 hu1 hu2 hv1 hv2

/-- Witness for C2 at map size 16 and the corner index (1, 16). -/
theorem grid_index_roundtrip_witness :
    16 ∈ [16, 32, 64, 128, 256, 512, 1024] ∧ 1 ≤ 1 ∧ 1 ≤ 16 ∧ (16 : ℕ) ≤ 16 ∧
    index_from_camera_dir (camera_dir_from_index (1, 16) 16) 16 = ((1 : ℤ), (16 : ℤ)) :=
  ⟨by decide, by decide, by decide, by decide,
    grid_index_roundtrip 16 1 16 (by decide) (by decide) (by decide) (by decide) (by decide)⟩

end

/-! ### PCMP binary loading (`load_from_url` in `pixel_contrib.ts`) -/

/-- Errors observable from the TypeScript loader `load_from_url`: the single
explicit `throw new Error('Invalid pixel contribution header')` raised when
`Header.is_valid()` is false (covering both a wrong magic and a wrong version),
and the JavaScript runtime `RangeError` raised by `DataView.getUint32` or by the
`Float32Array` view constructor when a read extends past the end of the buffer. -/
inductive LoadError
  | invalidHeader
  | rangeError
deriving DecidableEq

/-- Little-endian unsigned 32-bit read, `DataView.getUint32(offset, true)`: fails
like the JavaScript runtime when fewer than 4 bytes remain after the offset. -/
def getUint32LE (data : List ℕ) (offset : ℕ) : Except LoadError ℕ :=
  if offset + 4 ≤ data.length then
    Except.ok (data.getD offset 0 + 256 * (data.getD (offset + 1) 0
      + 256 * (data.getD (offset + 2) 0 + 256 * data.getD (offset + 3) 0)))
  else Except.error LoadError.rangeError

/-- One parsed map record: the map size together with the raw little-endian bytes
of the `camera_angle` float and of the `map_size * map_size` contribution floats
(the loader hands the value bytes to a `Float32Array` view; no float
interpretation is needed for the parsing claims). -/
structure RawMap where
  map_size : ℕ
  camera_angle_bytes : List ℕ
  values_bytes : List ℕ
deriving DecidableEq

/-- The per-map loop of `load_from_url`: for each remaining map, reads `map_size`
(u32), `camera_angle` (f32, 4 bytes) and views `map_size * map_size` 32-bit floats;
the `Float32Array` constructor raises a `RangeError` when the view would extend
past the end of the buffer. -/
def read_maps (data : List ℕ) : ℕ → ℕ → Except LoadError (List RawMap)
  | 0, _ => Except.ok []
  | n + 1, offset =>
    match getUint32LE data offset with
    | Except.error e => Except.error e
    | Except.ok msize =>
      if offset + 8 ≤ data.length then
        if offset + 8 + 4 * (msize * msize) ≤ data.length then
          match read_maps data n (offset + 8 + 4 * (msize * msize)) with
          | Except.error e => Except.error e
          | Except.ok rest =>
            Except.ok (⟨msize, (data.drop (offset + 4)).take 4,
              (data.drop (offset + 8)).take (4 * (msize * msize))⟩ :: rest)
        else Except.error LoadError.rangeError
      else Except.error LoadError.rangeError

/-- `load_from_url` after the fetch, on the in-memory byte buffer.
`Header.from_bytes(data.slice(0, 8))` computes the 4 magic characters (which never
throws) and reads the version with `getUint32(4)` on the 8-byte slice, which
raises a `RangeError` when the buffer holds fewer than 8 bytes. `is_valid()`
compares the magic with the character sequence 'PCMP' (bytes 80, 67, 77, 80) and
the version with 1; when it fails the loader throws its single header error. The
map count is then read at offset 8 and the per-map loop starts at offset 12. -/
def load_from_bytes (data : List ℕ) : Except LoadError (List RawMap) :=
  if data.length < 8 then Except.error LoadError.rangeError
  else
    let version := data.getD 4 0 + 256 * (data.getD 5 0
      + 256 * (data.getD 6 0 + 256 * data.getD 7 0))
    let magic_ok := (data.getD 0 0 == 80) && (data.getD 1 0 == 67)
      && (data.getD 2 0 == 77) && (data.getD 3 0 == 80)
    if !(magic_ok && (version == 1)) then Except.error LoadError.invalidHeader
    else
      match getUint32LE data 8 with
      | Except.error e => Except.error e
      | Except.ok num_maps => read_maps data num_maps 12

/-- C3 counterexample: a buffer whose magic is wrong (first byte 88 = 'X', version
1) and a buffer whose magic is right but whose version is 2 produce the very same
error value: the magic defect and the version defect are not distinguishable by
the error produced. -/
theorem load_magic_version_same_error :
    load_from_bytes [88, 67, 77, 80, 1, 0, 0, 0, 0, 0, 0, 0]
        = Except.error LoadError.invalidHeader
    ∧ load_from_bytes [80, 67, 77, 80, 2, 0, 0, 0, 0, 0, 0, 0]
        = Except.error LoadError.invalidHeader := ⟨rfl, rfl⟩

/-- C3 amended: a bad magic and an unsupported version both fail with the one
header-validation error of the loader (hence those two defects are mutually
indistinguishable), while a buffer truncated mid-grid fails with the distinct
out-of-bounds read error. The truncated buffer of the third conjunct declares one
map of size 2 (16 value bytes needed) but ends after 4 value bytes. -/
theorem load_error_behaviour (data : List ℕ) :
    (8 ≤ data.length →
      ((data.getD 0 0 == 80) && (data.getD 1 0 == 67) && (data.getD 2 0 == 77)
        && (data.getD 3 0 == 80)) = false →
      load_from_bytes data = Except.error LoadError.invalidHeader)
    ∧ (8 ≤ data.length →
      data.getD 4 0 + 256 * (data.getD 5 0 + 256 * (data.getD 6 0
        + 256 * data.getD 7 0)) ≠ 1 →
      load_from_bytes data = Except.error LoadError.invalidHeader)
    ∧ load_from_bytes [80, 67, 77, 80, 1, 0, 0, 0, 1, 0, 0, 0,
        2, 0, 0, 0, 0, 0, 0, 0, 1, 2, 3, 4] = Except.error LoadError.rangeError
    ∧ LoadError.rangeError ≠ LoadError.invalidHeader := by
  refine ⟨?_, ?_, rfl, by decide⟩
  · intro hlen hmagic
    simp only [load_from_bytes]
    rw [if_neg (by omega)]
    split_ifs with hcond
    · rfl
    · rw [hmagic] at hcond
      simp at hcond
  · intro hlen hversion
    simp only [load_from_bytes]
    rw [if_neg (by omega)]
    have hv : (data.getD 4 0 + 256 * (data.getD 5 0 + 256 * (data.getD 6 0
        + 256 * data.getD 7 0)) == 1) = false := by
      simpa using hversion
    split_ifs with hcond
    · rfl
    · rw [hv] at hcond
      simp at hcond

/-- Witness for the amended C3 theorem at the two concrete defective buffers. -/
theorem load_error_behaviour_witness :
    load_from_bytes [88, 67, 77, 80, 1, 0, 0, 0]
        = Except.error LoadError.invalidHeader
    ∧ load_from_bytes [80, 67, 77, 80, 3, 0, 0, 0]
        = Except.error LoadError.invalidHeader :=
  ⟨(load_error_behaviour _).1 (by decide) (by decide),
    (load_error_behaviour _).2.1 (by decide) (by decide)⟩

/-! ### Contribution maps and angle interpolators (`interpolate.ts`) -/

noncomputable section

/-- A pixel contribution map: map size, camera angle (radians) and the row-major
list of contribution values (`Float32Array` in the source; out-of-range reads in
the proofs never occur, in-range reads use `getD` with an irrelevant default). -/
structure PixelContributionMap where
  map_size : ℕ
  camera_angle : ℝ
  pixel_contrib : List ℝ

instance : Inhabited PixelContributionMap :=
  ⟨⟨0, 0, []⟩⟩

/-- gl-matrix `mat2`, stored column-major: `a b c d` are the array elements
`m[0] m[1] m[2] m[3]`; column 0 is `(a, b)` and column 1 is `(c, d)`. -/
structure Mat2 where
  a : ℝ
  b : ℝ
  c : ℝ
  d : ℝ

/-- gl-matrix `mat2.invert`: computes the determinant `m[0]*m[3] - m[2]*m[1]` and
returns `null` (here `none`) when it is zero. -/
def mat2_invert (m : Mat2) : Option Mat2 :=
  let det := m.a * m.d - m.c * m.b
  if det = 0 then none
  else some ⟨m.d * (1 / det), -m.b * (1 / det), -m.c * (1 / det), m.a * (1 / det)⟩

/-- gl-matrix `vec2.transformMat2`: `(m[0]*x + m[2]*y, m[1]*x + m[3]*y)`. -/
def vec2_transformMat2 (v : Vec2) (m : Mat2) : Vec2 :=
  ⟨m.a * v.x + m.c * v.y, m.b * v.x + m.d * v.y⟩

/-- `LinearPixelContribInterpolator`: binds the first and the last map of the set
at construction time. -/
structure LinearInterp where
  first_map : PixelContributionMap
  last_map : PixelContributionMap

/-- Constructor of `LinearPixelContribInterpolator`: `contrib_maps[0]` and
`contrib_maps[contrib_maps.length - 1]`. -/
def mkLinear (contrib_maps : List PixelContributionMap) : LinearInterp :=
  ⟨contrib_maps.getD 0 default, contrib_maps.getD (contrib_maps.length - 1) default⟩

/-- `LinearPixelContribInterpolator.interpolate`. -/
def linear_interpolate (self : LinearInterp) (angle : ℝ) (pos : ℕ × ℕ) : ℝ :=
  let first_angle := self.first_map.camera_angle
  let last_angle := self.last_map.camera_angle
  let index := pos.2 * self.first_map.map_size + pos.1
  let first_value := self.first_map.pixel_contrib.getD index 0
  let last_value := self.last_map.pixel_contrib.getD index 0
  let f := (angle - first_angle) / (last_angle - first_angle)
  first_value * (1 - f) + last_value * f

/-- `AnglePixelContribInterpolator` (the tangent variant): binds the first and the
last map of the set at construction time. -/
structure AngleInterp where
  first_map : PixelContributionMap
  last_map : PixelContributionMap

/-- Constructor of `AnglePixelContribInterpolator`. -/
def mkAngle (contrib_maps : List PixelContributionMap) : AngleInterp :=
  ⟨contrib_maps.getD 0 default, contrib_maps.getD (contrib_maps.length - 1) default⟩

/-- `AnglePixelContribInterpolator.interpolate`: progress is parameterized by
`tan(angle / 2)` instead of the angle itself. -/
def angle_interpolate (self : AngleInterp) (angle : ℝ) (pos : ℕ × ℕ) : ℝ :=
  let first_angle := self.first_map.camera_angle
  let last_angle := self.last_map.camera_angle
  let index := pos.2 * self.first_map.map_size + pos.1
  let first_value := self.first_map.pixel_contrib.getD index 0
  let last_value := self.last_map.pixel_contrib.getD index 0
  let a_start := Real.tan (first_angle / 2)
  let a_last := Real.tan (last_angle / 2)
  let a := Real.tan (angle / 2)
  let t := (a - a_start) / (a_last - a_start)
  first_value * (1 - t) + last_value * t

/-- `QuadraticPixelContribInterpolator`: binds first, middle and last map and the
inverted coefficient matrix. -/
structure QuadraticInterp where
  first_map : PixelContributionMap
  middle_map : PixelContributionMap
  last_map : PixelContributionMap
  A : Option Mat2

/-- The single explicit error of the Quadratic constructors:
`throw new Error("Not enough contribution maps given")`. -/
inductive InterpError
  | notEnoughMaps
deriving DecidableEq

/-- Constructor of `QuadraticPixelContribInterpolator` as written in `part_003` /
`part_004`: throws for `n <= 2`, binds `contrib_maps[0]`,
`contrib_maps[⌊n / 2⌋]` and `contrib_maps[n - 1]`, and inverts the matrix
`mat2.fromValues(x1*x1, x2*x2, x1, x2)` (`mat2.invert` returns `null` on a zero
determinant, stored as-is; the `console.assert` calls on the angle preconditions
only log and are not error paths). -/
def mkQuadratic (contrib_maps : List PixelContributionMap) :
    Except InterpError QuadraticInterp :=
  if contrib_maps.length ≤ 2 then Except.error InterpError.notEnoughMaps
  else
    let first := contrib_maps.getD 0 default
    let last := contrib_maps.getD (contrib_maps.length - 1) default
    let middle := contrib_maps.getD (contrib_maps.length / 2) default
    let x1 := middle.camera_angle
    let x2 := last.camera_angle
    Except.ok ⟨first, middle, last, mat2_invert ⟨x1 * x1, x2 * x2, x1, x2⟩⟩

/-- Constructor of `QuadraticPixelContribInterpolator` as written in
`analyze-pixel-maps/src/interpolate.ts`: identical to `mkQuadratic` except for
the guard, which reads `contrib_maps.length <= 3` and therefore also rejects a
set of exactly three maps. -/
def mkQuadratic_ts (contrib_maps : List PixelContributionMap) :
    Except InterpError QuadraticInterp :=
  if contrib_maps.length ≤ 3 then Except.error InterpError.notEnoughMaps
  else
    let first := contrib_maps.getD 0 default
    let last := contrib_maps.getD (contrib_maps.length - 1) default
    let middle := contrib_maps.getD (contrib_maps.length / 2) default
    let x1 := middle.camera_angle
    let x2 := last.camera_angle
    Except.ok ⟨first, middle, last, mat2_invert ⟨x1 * x1, x2 * x2, x1, x2⟩⟩

/-- `QuadraticPixelContribInterpolator.interpolate`: fixes `c = y0`, solves for
the remaining coefficients through the stored inverted matrix and evaluates the
quadratic polynomial at the query angle. When the stored matrix is `null` the
JavaScript source would fail at the `vec2.transformMat2` call; the embedding
returns `none` in that (never exercised) case. -/
def quadratic_interpolate (self : QuadraticInterp) (angle : ℝ) (pos : ℕ × ℕ) :
    Option ℝ :=
  match self.A with
  | none => none
  | some m =>
    let index := pos.2 * self.first_map.map_size + pos.1
    let y0 := self.first_map.pixel_contrib.getD index 0
    let y1 := self.middle_map.pixel_contrib.getD index 0
    let y2 := self.last_map.pixel_contrib.getD index 0
    let c := y0
    let rhs : Vec2 := ⟨y1 - c, y2 - c⟩
    let coefficients := vec2_transformMat2 rhs m
    some (coefficients.x * angle * angle + coefficients.y * angle + c)

/-- C4: evaluation of the two Quadratic constructor variants. The `interpolate.ts`
constructor rejects a set of exactly three ascending-angle maps starting at angle
0 (its guard reads `length <= 3`), while the claim — and the sibling constructor
of `part_003`/`part_004`, whose guard reads `n <= 2` — has a set of three or more
maps succeed and only two or fewer fail. -/
theorem quadratic_constructor_map_count (maps : List PixelContributionMap) :
    mkQuadratic_ts [⟨1, 0, [0]⟩, ⟨1, 1, [0]⟩, ⟨1, 2, [0]⟩]
        = Except.error InterpError.notEnoughMaps
    ∧ (maps.length ≤ 2 → mkQuadratic maps = Except.error InterpError.notEnoughMaps)
    ∧ (3 ≤ maps.length → (mkQuadratic maps).isOk = true)
    ∧ (mkQuadratic [⟨1, 0, [0]⟩, ⟨1, 1, [0]⟩, ⟨1, 2, [0]⟩]).isOk = true := by
  refine ⟨rfl, ?_, ?_, rfl⟩
  · intro h
    unfold mkQuadratic
    rw [if_pos h]
  · intro h
    unfold mkQuadratic
    rw [if_neg (by omega)]
    rfl

/-- Witness for the C4 theorem: the empty set is rejected and a four-map set is
accepted by the `part_003`/`part_004` constructor. -/
theorem quadratic_constructor_map_count_witness :
    mkQuadratic [] = Except.error InterpError.notEnoughMaps
    ∧ (mkQuadratic [⟨1, 0, [0]⟩, ⟨1, 1, [0]⟩, ⟨1, 2, [0]⟩, ⟨1, 3, [0]⟩]).isOk = true :=
  ⟨(quadratic_constructor_map_count []).2.1 (by decide),
    (quadratic_constructor_map_count _).2.2.1 (by decide)⟩

/-- C7: a Quadratic interpolator built from three maps at angles 0 < x1 < x2
holding values y0, y1, y2 at a fixed grid position returns exactly y0, y1, y2
when queried at the angles 0, x1, x2 respectively. -/
theorem quadratic_exact_at_nodes (size px py : ℕ) (x1 x2 y0 y1 y2 : ℝ)
    (v0 v1 v2 : List ℝ)
    (hx1 : 0 < x1) (hx12 : x1 < x2)
    (h0 : v0.getD (py * size + px) 0 = y0)
    (h1 : v1.getD (py * size + px) 0 = y1)
    (h2 : v2.getD (py * size + px) 0 = y2) :
    ∃ q, mkQuadratic [⟨size, 0, v0⟩, ⟨size, x1, v1⟩, ⟨size, x2, v2⟩] = Except.ok q
      ∧ quadratic_interpolate q 0 (px, py) = some y0
      ∧ quadratic_interpolate q x1 (px, py) = some y1
      ∧ quadratic_interpolate q x2 (px, py) = some y2 := by
  have hx2 : 0 < x2 := lt_trans hx1 hx12
  have hdet : x1 * x1 * x2 - x1 * (x2 * x2) ≠ 0 := by
    rw [show x1 * x1 * x2 - x1 * (x2 * x2) = x1 * x2 * (x1 - x2) from by ring]
    exact mul_ne_zero (mul_ne_zero (ne_of_gt hx1) (ne_of_gt hx2))
      (ne_of_lt (by linarith))
  have hA : mat2_invert ⟨x1 * x1, x2 * x2, x1, x2⟩
      = some ⟨x2 * (1 / (x1 * x1 * x2 - x1 * (x2 * x2))),
          -(x2 * x2) * (1 / (x1 * x1 * x2 - x1 * (x2 * x2))),
          -x1 * (1 / (x1 * x1 * x2 - x1 * (x2 * x2))),
          x1 * x1 * (1 / (x1 * x1 * x2 - x1 * (x2 * x2)))⟩ := by
    simp only [mat2_invert]
    rw [if_neg hdet]
  refine ⟨⟨⟨size, 0, v0⟩, ⟨size, x1, v1⟩, ⟨size, x2, v2⟩,
    mat2_invert ⟨x1 * x1, x2 * x2, x1, x2⟩⟩, by with_unfolding_all rfl, ?_, ?_, ?_⟩
  · simp only [quadratic_interpolate, vec2_transformMat2, hA, h0, h1, h2,
      Option.some.injEq]
    ring
  · simp only [quadratic_interpolate, vec2_transformMat2, hA, h0, h1, h2,
      Option.some.injEq]
    field_simp
    ring
  · simp only [quadratic_interpolate, vec2_transformMat2, hA, h0, h1, h2,
      Option.some.injEq]
    field_simp
    ring

/-- Witness for C7 with three concrete maps of size 1 at angles 0, 1, 2 and
values 3, 4, 6. -/
theorem quadratic_exact_at_nodes_witness :
    (0 : ℝ) < 1 ∧ (1 : ℝ) < 2 ∧
    (∃ q, mkQuadratic [⟨1, 0, [3]⟩, ⟨1, 1, [4]⟩, ⟨1, 2, [6]⟩] = Except.ok q
      ∧ quadratic_interpolate q 0 (0, 0) = some 3
      ∧ quadratic_interpolate q 1 (0, 0) = some 4
      ∧ quadratic_interpolate q 2 (0, 0) = some 6) :=
  ⟨by norm_num, by norm_num,
    quadratic_exact_at_nodes 1 0 0 1 2 3 4 6 [3] [4] [6]
      (by norm_num) (by norm_num) rfl rfl rfl⟩

/-- The synthetic two-map set of the end-to-end claim: camera angles 0 and π/2,
constant contribution values 0.2 and 0.8 at every cell. -/
def two_map_set (size : ℕ) : List PixelContributionMap :=
  [⟨size, 0, List.replicate (size * size) 0.2⟩,
   ⟨size, Real.pi / 2, List.replicate (size * size) 0.8⟩]

/-- Reading any in-range cell of a constant list yields the constant. -/
lemma getD_replicate_lt (a d : ℝ) :
    ∀ n i : ℕ, i < n → (List.replicate n a).getD i d = a := by
  intro n
  induction n with
  | zero =>
    intro i h
    omega
  | succ m ih =>
    intro i h
    cases i with
    | zero => rfl
    | succ j => exact ih j (by omega)

/-- C8: on the two-map set with angles 0 and π/2 and constant values 0.2 and 0.8,
Linear interpolation at angle π/4 returns 0.5 at every grid position, and
Tangent/Angle interpolation at π/4 returns a value strictly between 0.2 and 0.8
different from 0.5. -/
theorem linear_and_tangent_at_pi_quarter (size px py : ℕ)
    (hpx : px < size) (hpy : py < size) :
    linear_interpolate (mkLinear (two_map_set size)) (Real.pi / 4) (px, py) = 0.5
    ∧ 0.2 < angle_interpolate (mkAngle (two_map_set size)) (Real.pi / 4) (px, py)
    ∧ angle_interpolate (mkAngle (two_map_set size)) (Real.pi / 4) (px, py) < 0.8
    ∧ angle_interpolate (mkAngle (two_map_set size)) (Real.pi / 4) (px, py) ≠ 0.5 := by
  have hidx : py * size + px < size * size := by
    have h1 : py + 1 ≤ size := hpy
    calc py * size + px < py * size + size := by omega
      _ = (py + 1) * size := by ring
      _ ≤ size * size := Nat.mul_le_mul_right size h1
  have hv2 : (List.replicate (size * size) (0.2 : ℝ)).getD (py * size + px) 0 = 0.2 :=
    getD_replicate_lt _ _ _ _ hidx
  have hv8 : (List.replicate (size * size) (0.8 : ℝ)).getD (py * size + px) 0 = 0.8 :=
    getD_replicate_lt _ _ _ _ hidx
  have hmkL : mkLinear (two_map_set size) =
      ⟨⟨size, 0, List.replicate (size * size) 0.2⟩,
       ⟨size, Real.pi / 2, List.replicate (size * size) 0.8⟩⟩ := by
    with_unfolding_all rfl
  have hmkA : mkAngle (two_map_set size) =
      ⟨⟨size, 0, List.replicate (size * size) 0.2⟩,
       ⟨size, Real.pi / 2, List.replicate (size * size) 0.8⟩⟩ := by
    with_unfolding_all rfl
  constructor
  · rw [hmkL]
    simp only [linear_interpolate, hv2, hv8]
    have hf : (Real.pi / 4 - 0) / (Real.pi / 2 - 0) = 1 / 2 := by
      rw [sub_zero, sub_zero, div_div_div_comm, div_self Real.pi_ne_zero]
      norm_num
    rw [hf]
    norm_num
  · rw [hmkA]
    simp only [angle_interpolate, hv2, hv8]
    rw [show (0 : ℝ) / 2 = 0 from by norm_num, Real.tan_zero,
      show Real.pi / 2 / 2 = Real.pi / 4 from by ring, Real.tan_pi_div_four,
      show Real.pi / 4 / 2 = Real.pi / 8 from by ring, sub_zero, sub_zero, div_one]
    have hpi := Real.pi_pos
    have ht0 : 0 < Real.tan (Real.pi / 8) :=
      Real.tan_pos_of_pos_of_lt_pi_div_two (by positivity) (by linarith)
    have ht1 : Real.tan (Real.pi / 8) < 1 := by
      rw [← Real.tan_pi_div_four]
      exact Real.tan_lt_tan_of_nonneg_of_lt_pi_div_two (by positivity)
        (by linarith) (by linarith)
    have htne : Real.tan (Real.pi / 8) ≠ 1 / 2 := by
      intro hc
      have h2 : Real.tan (2 * (Real.pi / 8)) = 1 := by
        rw [show 2 * (Real.pi / 8) = Real.pi / 4 from by ring, Real.tan_pi_div_four]
      rw [Real.tan_two_mul, hc] at h2
      norm_num at h2
    refine ⟨by nlinarith, by nlinarith, ?_⟩
    intro hc
    apply htne
    nlinarith

/-- Witness for C8 on a 1×1 grid at position (0, 0). -/
theorem linear_and_tangent_at_pi_quarter_witness :
    (0 : ℕ) < 1 ∧
    (linear_interpolate (mkLinear (two_map_set 1)) (Real.pi / 4) (0, 0) = 0.5
      ∧ 0.2 < angle_interpolate (mkAngle (two_map_set 1)) (Real.pi / 4) (0, 0)
      ∧ angle_interpolate (mkAngle (two_map_set 1)) (Real.pi / 4) (0, 0) < 0.8
      ∧ angle_interpolate (mkAngle (two_map_set 1)) (Real.pi / 4) (0, 0) ≠ 0.5) :=
  ⟨by decide, linear_and_tangent_at_pi_quarter 1 0 0 (by decide) (by decide)⟩

/-! ### The interpolation-error analyzer (`interpolation_error.ts`, `part_012`) -/

/-- `determine_interpolation_error` (the `PixelContributionMap[]` variant of
`interpolation_error.ts`, also `part_012`): one newly allocated output map per
input map with the same descriptor, each cell holding the absolute difference
between the interpolated and the stored value. The interpolator argument is the
`interpolate` capability of the `PixelContribInterpolator` interface. The nested
y/x loop of the source writes cell `index = y * map_size + x` once for every
`y, x < map_size`; it is modelled by mapping over the flat index range with
`x = index % map_size` and `y = index / map_size`, which enumerates exactly the
same writes. -/
def determine_interpolation_error (interp : ℝ → ℕ × ℕ → ℝ)
    (contrib_maps : List PixelContributionMap) : List PixelContributionMap :=
  contrib_maps.map (fun contrib =>
    ⟨contrib.map_size, contrib.camera_angle,
      (List.range (contrib.map_size * contrib.map_size)).map (fun index =>
        |interp contrib.camera_angle (index % contrib.map_size, index / contrib.map_size)
          - contrib.pixel_contrib.getD index 0|)⟩)

/-- Reading the error grid of one map at an in-range cell. -/
lemma error_map_cell (interp : ℝ → ℕ × ℕ → ℝ) (m : PixelContributionMap)
    (px py : ℕ) (hpx : px < m.map_size) (hpy : py < m.map_size) :
    ((List.range (m.map_size * m.map_size)).map (fun index =>
        |interp m.camera_angle (index % m.map_size, index / m.map_size)
          - m.pixel_contrib.getD index 0|)).getD (py * m.map_size + px) 0
      = |interp m.camera_angle (px, py)
          - m.pixel_contrib.getD (py * m.map_size + px) 0| := by
  have hpy' : py + 1 ≤ m.map_size := hpy
  have hidx : py * m.map_size + px < m.map_size * m.map_size := by
    calc py * m.map_size + px < py * m.map_size + m.map_size := by omega
      _ = (py + 1) * m.map_size := by ring
      _ ≤ m.map_size * m.map_size := Nat.mul_le_mul_right _ hpy'
  have hlen : py * m.map_size + px < ((List.range (m.map_size * m.map_size)).map
      (fun index => |interp m.camera_angle (index % m.map_size, index / m.map_size)
        - m.pixel_contrib.getD index 0|)).length := by
    simpa using hidx
  rw [List.getD_eq_getElem _ _ hlen, List.getElem_map, List.getElem_range]
  have hmod : (py * m.map_size + px) % m.map_size = px := by
    rw [Nat.add_comm, Nat.add_mul_mod_self_right, Nat.mod_eq_of_lt hpx]
  have hdiv : (py * m.map_size + px) / m.map_size = py := by
    rw [Nat.add_comm, Nat.add_mul_div_right _ _ (by omega : 0 < m.map_size),
      Nat.div_eq_of_lt hpx]
    omega
  rw [hmod, hdiv]

/-- C9: the error analyzer returns exactly one output map per input map, each
output preserving the input map's camera angle and map size, where every cell
holds the absolute difference between the interpolator evaluated at that map's
angle and cell position and the stored value; consequently, an interpolator that
reproduces every stored sample exactly yields an all-zero error map set. -/
theorem interpolation_error_model (interp : ℝ → ℕ × ℕ → ℝ)
    (maps : List PixelContributionMap) :
    (determine_interpolation_error interp maps).length = maps.length
    ∧ (∀ k, k < maps.length →
        ((determine_interpolation_error interp maps).getD k default).map_size
            = (maps.getD k default).map_size
          ∧ ((determine_interpolation_error interp maps).getD k default).camera_angle
            = (maps.getD k default).camera_angle
          ∧ ∀ px py, px < (maps.getD k default).map_size →
              py < (maps.getD k default).map_size →
              ((determine_interpolation_error interp maps).getD k
                  default).pixel_contrib.getD (py * (maps.getD k default).map_size + px) 0
                = |interp (maps.getD k default).camera_angle (px, py)
                    - (maps.getD k default).pixel_contrib.getD
                        (py * (maps.getD k default).map_size + px) 0|)
    ∧ ((∀ m ∈ maps, ∀ px py, px < m.map_size → py < m.map_size →
          interp m.camera_angle (px, py)
            = m.pixel_contrib.getD (py * m.map_size + px) 0) →
        ∀ k, k < maps.length → ∀ px py,
          px < (maps.getD k default).map_size → py < (maps.getD k default).map_size →
          ((determine_interpolation_error interp maps).getD k
              default).pixel_contrib.getD (py * (maps.getD k default).map_size + px) 0
            = 0) := by
  have hget : ∀ k, k < maps.length →
      (determine_interpolation_error interp maps).getD k default
        = ⟨(maps.getD k default).map_size, (maps.getD k default).camera_angle,
            (List.range ((maps.getD k default).map_size
                * (maps.getD k default).map_size)).map (fun index =>
              |interp (maps.getD k default).camera_angle
                  (index % (maps.getD k default).map_size,
                   index / (maps.getD k default).map_size)
                - (maps.getD k default).pixel_contrib.getD index 0|)⟩ := by
    intro k hk
    have hk' : k < (determine_interpolation_error interp maps).length := by
      simpa [determine_interpolation_error] using hk
    rw [List.getD_eq_getElem _ _ hk']
    simp only [determine_interpolation_error, List.getElem_map]
    rw [← List.getD_eq_getElem maps default hk]
  refine ⟨by simp [determine_interpolation_error], ?_, ?_⟩
  · intro k hk
    simp only [hget k hk]
    exact ⟨trivial, trivial, fun px py hpx hpy =>
      error_map_cell interp (maps.getD k default) px py hpx hpy⟩
  · intro hexact k hk px py hpx hpy
    have hm : maps.getD k default ∈ maps := by
      rw [List.getD_eq_getElem maps default hk]
      exact List.getElem_mem hk
    simp only [hget k hk]
    rw [error_map_cell interp (maps.getD k default) px py hpx hpy,
      hexact (maps.getD k default) hm px py hpx hpy, sub_self, abs_zero]

/-- Witness for C9: the constant interpolator matching a single constant 1×1 map
produces an error set of the same length whose only cell is zero. -/
theorem interpolation_error_model_witness :
    (determine_interpolation_error (fun _ _ => 0.3) [⟨1, 0, [0.3]⟩]).length
        = ([⟨1, 0, [0.3]⟩] : List PixelContributionMap).length
    ∧ ((determine_interpolation_error (fun _ _ => 0.3) [⟨1, 0, [0.3]⟩]).getD 0
          default).pixel_contrib.getD 0 0 = 0 :=
  ⟨(interpolation_error_model (fun _ _ => 0.3) [⟨1, 0, [0.3]⟩]).1, by
    have h := (interpolation_error_model (fun _ _ => (0.3 : ℝ)) [⟨1, 0, [0.3]⟩]).2.2
      (by
        intro m hm px py hpx hpy
        rw [List.mem_singleton] at hm
        subst hm
        have hpx0 : px = 0 := by simpa using hpx
        have hpy0 : py = 0 := by simpa using hpy
        subst hpx0
        subst hpy0
        rfl)
      0 (by decide) 0 0 (by decide) (by decide)
    simpa using h⟩

/-- C10: the Linear and the Tangent/Angle interpolators depend only on the first
and the last map of the set they are constructed from: any two nonempty map sets
with the same first map and the same last map produce interpolators that agree on
every (angle, position) query, regardless of the maps in between. -/
theorem interpolators_use_only_first_and_last
    (l1 l2 : List PixelContributionMap) (h1 : l1 ≠ []) (h2 : l2 ≠ [])
    (hfirst : l1.head? = l2.head?) (hlast : l1.getLast? = l2.getLast?)
    (angle : ℝ) (pos : ℕ × ℕ) :
    linear_interpolate (mkLinear l1) angle pos
        = linear_interpolate (mkLinear l2) angle pos
    ∧ angle_interpolate (mkAngle l1) angle pos
        = angle_interpolate (mkAngle l2) angle pos := by
  have hfirst' : l1.getD 0 default = l2.getD 0 default := by
    cases l1 with
    | nil => exact absurd rfl h1
    | cons a t =>
      cases l2 with
      | nil => exact absurd rfl h2
      | cons b s =>
        have hab : a = b := by simpa using hfirst
        simp [hab]
  have hlast' : l1.getD (l1.length - 1) default = l2.getD (l2.length - 1) default := by
    have e1 : l1.getD (l1.length - 1) default = (l1[l1.length - 1]?).getD default :=
      List.getD_eq_getElem?_getD l1 _ default
    have e2 : l2.getD (l2.length - 1) default = (l2[l2.length - 1]?).getD default :=
      List.getD_eq_getElem?_getD l2 _ default
    rw [e1, e2, ← List.getLast?_eq_getElem? l1, ← List.getLast?_eq_getElem? l2, hlast]
  have eL : mkLinear l1 = mkLinear l2 := by
    simp only [mkLinear, hfirst', hlast']
  have eA : mkAngle l1 = mkAngle l2 := by
    simp only [mkAngle, hfirst', hlast']
  rw [eL, eA]
  exact ⟨rfl, rfl⟩

/-- Witness for C10: a three-map set and a two-map set sharing first and last
map but differing in the middle produce identical query results. -/
theorem interpolators_use_only_first_and_last_witness :
    ([⟨1, 0, [0.3]⟩, ⟨1, 1, [0.9]⟩, ⟨1, 2, [0.7]⟩] : List PixelContributionMap) ≠ []
    ∧ linear_interpolate (mkLinear [⟨1, 0, [0.3]⟩, ⟨1, 1, [0.9]⟩, ⟨1, 2, [0.7]⟩]) 5 (0, 0)
        = linear_interpolate (mkLinear [⟨1, 0, [0.3]⟩, ⟨1, 2, [0.7]⟩]) 5 (0, 0)
    ∧ angle_interpolate (mkAngle [⟨1, 0, [0.3]⟩, ⟨1, 1, [0.9]⟩, ⟨1, 2, [0.7]⟩]) 5 (0, 0)
        = angle_interpolate (mkAngle [⟨1, 0, [0.3]⟩, ⟨1, 2, [0.7]⟩]) 5 (0, 0) :=
  ⟨by simp,
    (interpolators_use_only_first_and_last _ _ (by simp) (by simp) rfl
      (by with_unfolding_all rfl) 5 (0, 0)).1,
    (interpolators_use_only_first_and_last _ _ (by simp) (by simp) rfl
      (by with_unfolding_all rfl) 5 (0, 0)).2⟩

end

end PixelContrib
